import Mathlib

/-! Verification of templatizr.

A shallow embedding of `main.go` (the whole program) and of the Go standard
library functions it calls (`unicode/utf8`, `strings`), followed by theorems
about the replacement parser, the transform, the file filter and the per-file
loop.

Go strings and byte slices are sequences of bytes; they are embedded as lists
of natural numbers (each below 256 in any real input).  A Go panic is the
value `none` of an `Option`.
-/

namespace Templatizr

/-- A Go `string` or `[]byte`. -/
abbrev Bytes := List Nat

/-- The bytes of an ASCII literal (used to write inputs readably). -/
def ascii (s : String) : Bytes := s.toList.map Char.toNat

/-! ## `unicode/utf8` -/

/-- Table `first` of `unicode/utf8`: information about the first byte of a
UTF-8 sequence (`as = 0xF0`, `xx = 0xF1`, `s1 .. s7`). -/
def first (b : Nat) : Nat :=
  if b < 0x80 then 0xF0
  else if b < 0xC2 then 0xF1
  else if b < 0xE0 then 0x02
  else if b = 0xE0 then 0x13
  else if b < 0xED then 0x03
  else if b = 0xED then 0x23
  else if b < 0xF0 then 0x03
  else if b = 0xF0 then 0x34
  else if b < 0xF4 then 0x04
  else if b = 0xF4 then 0x44
  else 0xF1

/-- Table `acceptRanges` of `unicode/utf8`, as `(lo, hi)`; entries past the
fifth are zero. -/
def acceptRanges (i : Nat) : Nat × Nat :=
  match i with
  | 0 => (0x80, 0xBF)
  | 1 => (0xA0, 0xBF)
  | 2 => (0x80, 0x9F)
  | 3 => (0x90, 0xBF)
  | 4 => (0x80, 0x8F)
  | _ => (0, 0)

/-- One iteration of the loop of `utf8.Valid` on `p[i:]`: `none` when the loop
returns false, otherwise the amount `i` advances by. -/
def validStep (rest : Bytes) : Option Nat :=
  let pi := rest.getD 0 0
  if pi < 0x80 then some 1
  else
    let x := first pi
    if x = 0xF1 then none
    else
      let size := x % 8
      if size > rest.length then none
      else
        let accept := acceptRanges (x / 16)
        let c1 := rest.getD 1 0
        if c1 < accept.1 ∨ accept.2 < c1 then none
        else if size = 2 then some size
        else
          let c2 := rest.getD 2 0
          if c2 < 0x80 ∨ 0xBF < c2 then none
          else if size = 3 then some size
          else
            let c3 := rest.getD 3 0
            if c3 < 0x80 ∨ 0xBF < c3 then none
            else some size

/-- The loop `for i := 0; i < n; \x7b ... \x7d` of `utf8.Valid`, on the part of
the input not yet read.  The first argument bounds the number of iterations;
each iteration reads at least one byte. -/
def validLoop : Nat → Bytes → Bool
  | 0, _ => true
  | _ + 1, [] => true
  | fuel + 1, b :: t =>
    match validStep (b :: t) with
    | none => false
    | some size => validLoop fuel ((b :: t).drop size)

/-- Go's `utf8.Valid`. -/
def Valid (p : Bytes) : Bool := validLoop p.length p

/-- The size returned by `utf8.DecodeRuneInString`. -/
def decodeRuneSize (s : Bytes) : Nat :=
  let n := s.length
  if n < 1 then 0
  else
    let s0 := s.getD 0 0
    let x := first s0
    if x ≥ 0xF0 then 1
    else
      let sz := x % 8
      let accept := acceptRanges (x / 16)
      if n < sz then 1
      else
        let s1 := s.getD 1 0
        if s1 < accept.1 ∨ accept.2 < s1 then 1
        else if sz ≤ 2 then 2
        else
          let s2 := s.getD 2 0
          if s2 < 0x80 ∨ 0xBF < s2 then 1
          else if sz ≤ 3 then 3
          else
            let s3 := s.getD 3 0
            if s3 < 0x80 ∨ 0xBF < s3 then 1
            else 4

/-- One iteration of the loop of `utf8.RuneCountInString` on `s[i:]`: the
amount `i` advances by. -/
def runeCountStep (rest : Bytes) : Nat :=
  let c := rest.getD 0 0
  if c < 0x80 then 1
  else
    let x := first c
    if x = 0xF1 then 1
    else
      let size := x % 8
      if size > rest.length then 1
      else
        let accept := acceptRanges (x / 16)
        let c1 := rest.getD 1 0
        if c1 < accept.1 ∨ accept.2 < c1 then 1
        else if size = 2 then size
        else
          let c2 := rest.getD 2 0
          if c2 < 0x80 ∨ 0xBF < c2 then 1
          else if size = 3 then size
          else
            let c3 := rest.getD 3 0
            if c3 < 0x80 ∨ 0xBF < c3 then 1
            else size

/-- The loop `for i := 0; i < ns; n++` of `utf8.RuneCountInString`, on the
part of the string not yet read, with a bound on the number of iterations. -/
def runeCountLoop : Nat → Bytes → Nat
  | 0, _ => 0
  | _ + 1, [] => 0
  | fuel + 1, b :: t => 1 + runeCountLoop fuel ((b :: t).drop (runeCountStep (b :: t)))

/-- Go's `utf8.RuneCountInString`. -/
def RuneCountInString (s : Bytes) : Nat := runeCountLoop s.length s

/-! ## `strings` -/

/-- Go's `strings.Index`: the index of the first instance of `substr` in `s`,
`none` for Go's `-1`. -/
def Index (s substr : Bytes) : Option Nat :=
  match s with
  | [] => if substr.isPrefixOf [] then some 0 else none
  | b :: t =>
    if substr.isPrefixOf (b :: t) then some 0
    else (Index t substr).map (· + 1)

/-- The loop of the general case of `strings.Count`, with a bound on the number
of iterations. -/
def countLoop (substr : Bytes) : Nat → Bytes → Nat → Nat
  | 0, _, n => n
  | fuel + 1, s, n =>
    match Index s substr with
    | none => n
    | some i => countLoop substr fuel (s.drop (i + substr.length)) (n + 1)

/-- Go's `strings.Count`. -/
def Count (s substr : Bytes) : Nat :=
  if substr.length = 0 then RuneCountInString s + 1
  else if substr.length = 1 then s.count (substr.getD 0 0)
  else countLoop substr (s.length + 1) s 0

/-- The loop `for i := 0; i < n; i++` of `strings.Replace`: `n - i` iterations
remain, `isFirst` is `i == 0`, `rest` is `s[start:]` and `b` the builder.  A
slice `s[start:j]` out of range is a panic (`none`). -/
def replaceLoop (old new : Bytes) : Nat → Bool → Bytes → Bytes → Option Bytes
  | 0, _, rest, b => some (b ++ rest)
  | k + 1, isFirst, rest, b =>
    if old.length = 0 then
      let j := if isFirst then 0 else decodeRuneSize rest
      if j ≤ rest.length then
        replaceLoop old new k false (rest.drop (j + old.length)) (b ++ rest.take j ++ new)
      else none
    else
      match Index rest old with
      | none => none
      | some j =>
        replaceLoop old new k false (rest.drop (j + old.length)) (b ++ rest.take j ++ new)

/-- Go's `strings.Replace`. -/
def Replace (s old new : Bytes) (n : Int) : Option Bytes :=
  if old = new ∨ n = 0 then some s
  else
    let m := Count s old
    if m = 0 then some s
    else
      let n := if n < 0 ∨ (m : Int) < n then m else n.toNat
      replaceLoop old new n true s []

/-- Go's `strings.ReplaceAll`: `Replace(s, old, new, -1)`. -/
def ReplaceAll (s old new : Bytes) : Option Bytes := Replace s old new (-1)

/-- The loop `for i < n` of `strings.genSplit` (with `sepSave = 0`): `k` is
`n - i`, `a` the parts stored so far. -/
def genSplitLoop (sep : Bytes) : Nat → Bytes → List Bytes → List Bytes
  | 0, s, a => a ++ [s]
  | k + 1, s, a =>
    match Index s sep with
    | none => a ++ [s]
    | some m => genSplitLoop sep k (s.drop (m + sep.length)) (a ++ [s.take m])

/-- Go's `strings.Split(s, sep)` for a separator of one byte, the only kind
`main.go` passes (`","` and `"/"`): `genSplit(s, sep, 0, -1)`. -/
def Split (s : Bytes) (sep : Nat) : List Bytes :=
  let n := Count s [sep] + 1
  let n := if n > s.length + 1 then s.length + 1 else n
  genSplitLoop [sep] (n - 1) s []

/-! ## `main.go` -/

/-- What `main.go` reads of a `*glob.FileAsset`: `Path`, `FileInfo.IsDir()`
and `FileInfo.Mode()`. -/
structure FileAsset where
  Path : Bytes
  IsDir : Bool
  Mode : Nat
deriving DecidableEq, Repr

/-- A Go slice header together with the memory it points to: `backing` is the
backing array from the slice's first element on (its length is the capacity),
`len` the length of the slice. -/
structure Slice (α : Type) where
  backing : List α
  len : Nat
  len_le : len ≤ backing.length

/-- The elements `s[0], ..., s[len(s)-1]`. -/
def Slice.toList {α : Type} (s : Slice α) : List α := s.backing.take s.len

/-- A slice with no spare capacity holding the given elements. -/
def Slice.ofList {α : Type} (l : List α) : Slice α := ⟨l, l.length, le_refl _⟩

/-- Function `pushGlob` (lines 42-47).  The reslice `slice[0 : n+1]` panics when
`n+1` exceeds the capacity; the store `slice[n] = element` writes the backing
array. -/
def pushGlob (slice : Slice FileAsset) (element : FileAsset) : Option (Slice FileAsset) :=
  let n := slice.len
  if h : n + 1 ≤ slice.backing.length then
    some ⟨slice.backing.set n element, n + 1, by simpa using h⟩
  else none

/-- The loop `for _, asset := range assets` of `getFiles`: `k` iterations
remain, `i` is the index.  `assets` and `files` share one backing array, so
`assets[i]` is read from the backing array of `files` as it is at that
iteration. -/
def getFilesLoop : Nat → Nat → Slice FileAsset → Option (Slice FileAsset)
  | 0, _, files => some files
  | k + 1, i, files =>
    match files.backing[i]? with
    | none => none
    | some asset =>
      if !asset.IsDir then
        match pushGlob files asset with
        | none => none
        | some files1 => getFilesLoop k (i + 1) files1
      else getFilesLoop k (i + 1) files

/-- Function `getFiles` (lines 49-57): `files := assets[0:0]`, then the loop. -/
def getFiles (assets : Slice FileAsset) : Option (Slice FileAsset) :=
  getFilesLoop assets.len 0 ⟨assets.backing, 0, Nat.zero_le _⟩

/-- Type `Replacement` (lines 60-63). -/
structure Replacement where
  Search : Bytes
  Replace : Bytes
deriving DecidableEq, Repr

/-- Type `ConfigFile` (lines 66-68). -/
structure ConfigFile where
  Replacements : List Replacement
deriving DecidableEq, Repr

/-- A Go slice expression `s[lo:hi]` on a string: a panic unless
`0 ≤ lo ≤ hi ≤ len(s)`. -/
def sliceStr (s : Bytes) (lo hi : Int) : Option Bytes :=
  if 0 ≤ lo ∧ lo ≤ hi ∧ hi ≤ (s.length : Int) then
    some ((s.drop lo.toNat).take (hi - lo).toNat)
  else none

/-- The loop `for i, r := range replacements` of `getReplacementConf` (lines
73-76): the tokens not yet read, the index `i` and the `result` array. -/
def getReplacementConfLoop : List Bytes → Nat → List Replacement → Option (List Replacement)
  | [], _, result => some result
  | r :: rs, i, result =>
    match sliceStr r 1 ((r.length : Int) - 1) with
    | none => none
    | some inner =>
      let pair := Split inner 47
      match pair[0]?, pair[1]? with
      | some p0, some p1 => getReplacementConfLoop rs (i + 1) (result.set i ⟨p0, p1⟩)
      | _, _ => none

/-- Function `getReplacementConf` (lines 70-78). -/
def getReplacementConf (replace : Bytes) : Option (List Replacement) :=
  let replacements := Split replace 44
  let result := List.replicate replacements.length (⟨[], []⟩ : Replacement)
  getReplacementConfLoop replacements 0 result

/-- Type `errRequiredFlags` (lines 80-82). -/
structure errRequiredFlags where
  missingFlags : List Bytes
deriving DecidableEq, Repr

/-- Go's `strings.Join`. -/
def Join (elems : List Bytes) (sep : Bytes) : Bytes := sep.intercalate elems

/-- Method `errRequiredFlags.Error` (lines 84-91).  The verb `%q` of
`fmt.Sprintf` is the parameter `quote`. -/
def errRequiredFlags.Error (quote : Bytes → Bytes) (e : errRequiredFlags) : Bytes :=
  let numberOfMissingFlags := e.missingFlags.length
  if numberOfMissingFlags = 1 then
    ascii "Required flag " ++ quote (e.missingFlags.getD 0 []) ++ ascii " not set"
  else
    let joinedMissingFlags := Join e.missingFlags (ascii ", ")
    ascii "Required flags " ++ quote joinedMissingFlags ++ ascii " not set"

/-- What the process does to the outside world, in order. -/
inductive Event where
  | readFile (path : Bytes)
  | glob (patterns : List Bytes)
  | mkdirAll (path : Bytes) (perm : Nat)
  | writeFile (path : Bytes) (data : Bytes) (perm : Nat)
  | println (line : Bytes)
deriving DecidableEq, Repr

/-- How the `Action` of `main` ends: it returns `nil`, it returns the
`errRequiredFlags` error, or it panics (through `check` or a runtime error). -/
inductive Outcome where
  | success
  | requiredFlags (e : errRequiredFlags)
  | panic
deriving DecidableEq, Repr

/-- The operating system and the libraries `main.go` calls, over an abstract
state `σ` of the filesystem.  An operation that can fail returns `none` (reads)
or an error flag beside the new state (writes). -/
structure Sys (σ : Type) where
  /-- `os.Getwd`. -/
  getwd : σ → Option Bytes
  /-- `filepath.Abs`. -/
  abs : σ → Bytes → Option Bytes
  /-- `filepath.Join`. -/
  join : List Bytes → Bytes
  /-- `filepath.Dir`. -/
  dir : Bytes → Bytes
  /-- `ioutil.ReadFile`. -/
  readFile : σ → Bytes → Option Bytes
  /-- `yaml.Unmarshal` into a zero `ConfigFile`: the value filled in. -/
  unmarshal : Bytes → Option ConfigFile
  /-- `glob.Glob`: the matches. -/
  glob : σ → List Bytes → Option (Slice FileAsset)
  /-- `os.MkdirAll`: the new state and whether it returned an error. -/
  mkdirAll : σ → Bytes → Nat → σ × Bool
  /-- `ioutil.WriteFile`: the new state and whether it returned an error. -/
  writeFile : σ → Bytes → Bytes → Nat → σ × Bool

/-- The state of a run: the filesystem and the events so far. -/
structure Run (σ : Type) where
  state : σ
  trace : List Event

/-- Append an event to the trace. -/
def Run.emit {σ : Type} (r : Run σ) (e : Event) : Run σ := ⟨r.state, r.trace ++ [e]⟩

/-- Function `check` (lines 17-21): `panic(e)` when the error `e` is not nil.
The argument tells whether the error is non-nil; `none` is the panic. -/
def check (e : Bool) : Option Unit := if e then none else some ()

/-- Function `pwd` (lines 23-27): `os.Getwd`, then `check`. -/
def pwd {σ : Type} (sys : Sys σ) (st : σ) : Option Bytes := sys.getwd st

/-- Function `toAbsolutePath` (lines 29-33): `filepath.Abs`, then `check`. -/
def toAbsolutePath {σ : Type} (sys : Sys σ) (st : σ) (pointer : Bytes) : Option Bytes :=
  sys.abs st pointer

/-- Function `getFileList` (lines 35-40): `glob.Glob` on the input pattern and
the negated exclude pattern, then `check`. -/
def getFileList {σ : Type} (sys : Sys σ) (st : σ) (input exclude : Bytes) :
    Option (Slice FileAsset) :=
  sys.glob st [input, ascii "!" ++ exclude]

/-- The loop `for _, replacement := range replacements` (lines 161-163). -/
def applyReplacements : List Replacement → Bytes → Option Bytes
  | [], outFile => some outFile
  | replacement :: rest, outFile =>
    match ReplaceAll outFile replacement.Search replacement.Replace with
    | none => none
    | some out => applyReplacements rest out

/-- The body of the loop over `files` (lines 153-170).  The flag of the result
is true when the body panicked. -/
def processFile {σ : Type} (sys : Sys σ) (output extension : Bytes)
    (replacements : List Replacement) (file : FileAsset) (r : Run σ) : Run σ × Bool :=
  match pwd sys r.state with
  | none => (r, true)
  | some cwd =>
    let dirPath := sys.join [cwd, output, sys.dir file.Path]
    let (st1, mkDirErr) := sys.mkdirAll r.state dirPath 0o755
    let r1 : Run σ := ⟨st1, r.trace ++ [Event.mkdirAll dirPath 0o755]⟩
    match check mkDirErr with
    | none => (r1, true)
    | some _ =>
      match toAbsolutePath sys r1.state file.Path with
      | none => (r1, true)
      | some absPath =>
        let r2 := r1.emit (Event.readFile absPath)
        match sys.readFile r1.state absPath with
        | none => (r2, true)
        | some content =>
          match pwd sys r2.state with
          | none => (r2, true)
          | some cwd2 =>
            let outfilePath := sys.join [cwd2, output, file.Path ++ extension]
            if Valid content then
              let r3 := r2.emit (Event.println (ascii "Applying replacements to " ++ file.Path))
              match applyReplacements replacements content with
              | none => (r3, true)
              | some outFile =>
                let (st4, writeErr) := sys.writeFile r3.state outfilePath outFile 0o655
                let r4 : Run σ := ⟨st4, r3.trace ++ [Event.writeFile outfilePath outFile 0o655]⟩
                match check writeErr with
                | none => (r4, true)
                | some _ =>
                  (r4.emit (Event.println (ascii "Created file with replacements " ++ outfilePath)),
                    false)
            else
              let (st4, _) := sys.writeFile r2.state outfilePath content file.Mode
              let r4 : Run σ := ⟨st4, r2.trace ++ [Event.writeFile outfilePath content file.Mode]⟩
              (r4.emit (Event.println (ascii "Copied binary file " ++ outfilePath)), false)

/-- The loop `for _, file := range files` (lines 152-171), then `return nil`. -/
def processFiles {σ : Type} (sys : Sys σ) (output extension : Bytes)
    (replacements : List Replacement) : List FileAsset → Run σ → Run σ × Outcome
  | [], r => (r, Outcome.success)
  | file :: rest, r =>
    match processFile sys output extension replacements file r with
    | (r1, true) => (r1, Outcome.panic)
    | (r1, false) => processFiles sys output extension replacements rest r1

/-- Lines 135-146 of the `Action`: the value of `replacements` when line 147 is
reached, or `none` when `check` or `getReplacementConf` panicked.  The trace
gains the read of the config file. -/
def resolveReplacements {σ : Type} (sys : Sys σ) (replace configPath : Bytes) (r : Run σ) :
    Run σ × Option (List Replacement) :=
  let fromConfig : Run σ × Option (List Replacement) :=
    if configPath.length > 0 then
      match toAbsolutePath sys r.state configPath with
      | none => (r, none)
      | some absPath =>
        let r1 := r.emit (Event.readFile absPath)
        match sys.readFile r.state absPath with
        | none => (r1, none)
        | some yamlFile =>
          match sys.unmarshal yamlFile with
          | none => (r1, none)
          | some c => (r1, some c.Replacements)
    else (r, some [])
  match fromConfig with
  | (r1, none) => (r1, none)
  | (r1, some replacements) =>
    if replace.length > 0 then (r1, getReplacementConf replace)
    else (r1, some replacements)

/-- The `Action` of `main` (lines 134-173). -/
def action {σ : Type} (sys : Sys σ) (input exclude output replace extension configPath : Bytes)
    (st : σ) : Run σ × Outcome :=
  match resolveReplacements sys replace configPath ⟨st, []⟩ with
  | (r1, none) => (r1, Outcome.panic)
  | (r1, some replacements) =>
    if replacements.length = 0 then
      (r1, Outcome.requiredFlags ⟨[ascii "config-file", ascii "replace"]⟩)
    else
      let r2 := r1.emit (Event.glob [input, ascii "!" ++ exclude])
      match getFileList sys r1.state input exclude with
      | none => (r2, Outcome.panic)
      | some assets =>
        match getFiles assets with
        | none => (r2, Outcome.panic)
        | some files => processFiles sys output extension replacements files.toList r2

/-! ## Specification-level definitions -/

/-- Replace every non-overlapping occurrence of a non-empty `old` by `new`,
scanning from left to right: at an occurrence write `new` and pass over the
occurrence (`skip` counts the bytes of it still to pass over), elsewhere copy
one byte. -/
def scanReplace (old new : Bytes) : Nat → Bytes → Bytes
  | _, [] => []
  | k + 1, _ :: t => scanReplace old new k t
  | 0, b :: t =>
    if old.isPrefixOf (b :: t) then new ++ scanReplace old new (old.length - 1) t
    else b :: scanReplace old new 0 t

/-- The characters of a text as byte sequences: its UTF-8 sequences in order,
a byte that starts no well-formed sequence being a character of its own. -/
def runesLoop : Nat → Bytes → List Bytes
  | 0, _ => []
  | _ + 1, [] => []
  | fuel + 1, b :: t =>
    (b :: t).take (decodeRuneSize (b :: t)) ::
      runesLoop fuel ((b :: t).drop (decodeRuneSize (b :: t)))

/-- The characters of a text. -/
def runes (t : Bytes) : List Bytes := runesLoop t.length t

/-- The substitution of the specification: every non-overlapping occurrence of
the literal `s` in `t`, scanning left to right, is replaced by `r`.  The empty
string occurs once before each character and once at the end. -/
def replaceEvery (t s r : Bytes) : Bytes :=
  if s = [] then r ++ ((runes t).map (· ++ r)).flatten
  else scanReplace s r 0 t

/-- The fold of the specification: the replacements applied in list order, each
to the result of the previous one. -/
def foldReplacements (R : List Replacement) (t : Bytes) : Bytes :=
  R.foldl (fun acc p => replaceEvery acc p.Search p.Replace) t

/-- The writes of a trace: path, data and permission bits of each call of
`ioutil.WriteFile`, in order. -/
def writes : List Event → List (Bytes × Bytes × Nat)
  | [] => []
  | Event.writeFile path data perm :: es => (path, data, perm) :: writes es
  | _ :: es => writes es

/-- The lines printed by a trace, in order. -/
def printed : List Event → List Bytes
  | [] => []
  | Event.println line :: es => line :: printed es
  | _ :: es => printed es

/-- The config file given by `configPath` is read and parsed without error and
holds the replacement list `l`. -/
def configYields {σ : Type} (sys : Sys σ) (st : σ) (configPath : Bytes)
    (l : List Replacement) : Prop :=
  ∃ absPath yamlFile, sys.abs st configPath = some absPath ∧
    sys.readFile st absPath = some yamlFile ∧ sys.unmarshal yamlFile = some ⟨l⟩

/-- The token `"/" + s + "/" + r + "/"` of the `--replace` syntax. -/
def encodeToken (p : Replacement) : Bytes := [47] ++ p.Search ++ [47] ++ p.Replace ++ [47]

/-- The `--replace` value that encodes a list of replacements: the tokens
joined with `","`. -/
def encodeReplace (l : List Replacement) : Bytes := Join (l.map encodeToken) [44]

/-- The remainder of a token once its first and last byte are stripped. -/
def stripped (tok : Bytes) : Bytes := (tok.drop 1).take (tok.length - 2)

/-- What one iteration of the loop of `getReplacementConf` computes from the
token `r`: the body of the loop (lines 74-75) without the store into `result`. -/
def parseToken (r : Bytes) : Option Replacement :=
  match sliceStr r 1 ((r.length : Int) - 1) with
  | none => none
  | some inner =>
    match (Split inner 47)[0]?, (Split inner 47)[1]? with
    | some p0, some p1 => some ⟨p0, p1⟩
    | _, _ => none

/-- The tokens parsed one after the other; a token that panics ends the run. -/
def parseTokens : List Bytes → Option (List Replacement)
  | [] => some []
  | r :: rs =>
    match parseToken r with
    | none => none
    | some p => (parseTokens rs).map (p :: ·)

/-! ## A small concrete system, for running the program on examples -/

/-- A filesystem in memory: the files under the working directory `/w` as
(relative path, content, mode), the assets the glob returns, and the absolute
paths whose write fails. -/
structure MemFS where
  files : List (Bytes × Bytes × Nat)
  assets : List FileAsset
  failing : List Bytes
deriving DecidableEq, Repr

/-- The directory part of a slash-separated path (`.` when it has no slash). -/
def memDir (path : Bytes) : Bytes :=
  if 47 ∈ path then ((path.reverse.dropWhile (· ≠ 47)).drop 1).reverse else [46]

/-- The system over `MemFS`: working directory `/w`, paths joined with `/`;
`parsed` is what the YAML parser returns for the config file. -/
def memSys (parsed : Option (List Replacement)) : Sys MemFS where
  getwd := fun _ => some (ascii "/w")
  abs := fun _ path => some (ascii "/w/" ++ path)
  join := fun parts => (ascii "/").intercalate parts
  dir := memDir
  readFile := fun st path =>
    (st.files.find? (fun f => decide (ascii "/w/" ++ f.1 = path))).map (fun f => f.2.1)
  unmarshal := fun _ => parsed.map ConfigFile.mk
  glob := fun st _ => some (Slice.ofList st.assets)
  mkdirAll := fun st _ _ => (st, false)
  writeFile := fun st path data perm =>
    if path ∈ st.failing then (st, true)
    else (⟨st.files ++ [(path.drop 3, data, perm)], st.assets, st.failing⟩, false)

/-- The input tree of the end-to-end scenario: `a.txt` holds `foo baz`, `b.bin`
holds bytes that are not UTF-8. -/
def demoFS : MemFS where
  files := [(ascii "a.txt", ascii "foo baz", 0o644), (ascii "b.bin", [0xff, 0xfe, 0x00], 0o755)]
  assets := [⟨ascii "a.txt", false, 0o644⟩, ⟨ascii "b.bin", false, 0o755⟩]
  failing := []

/-- The tree of `demoFS` where the write of `out/b.bin` fails, the binary file
coming first in the glob's order. -/
def failingFS : MemFS where
  files := [(ascii "a.txt", ascii "foo baz", 0o644), (ascii "b.bin", [0xff, 0xfe, 0x00], 0o755)]
  assets := [⟨ascii "b.bin", false, 0o755⟩, ⟨ascii "a.txt", false, 0o644⟩]
  failing := [ascii "/w/out/b.bin"]

/-- A tree that holds a config file `c.yml` beside `a.txt`. -/
def configFS : MemFS where
  files := [(ascii "a.txt", ascii "foo baz", 0o644), (ascii "c.yml", ascii "replacements:", 0o644)]
  assets := [⟨ascii "a.txt", false, 0o644⟩]
  failing := []

/-! ## The `strings` and `utf8` functions meet their descriptions -/

theorem index_nil (sub : Bytes) : Index [] sub = if sub = [] then some 0 else none := by
  cases sub <;> simp [Index, List.isPrefixOf]

theorem index_eq_none_iff (s sub : Bytes) : Index s sub = none ↔ ¬ sub <:+: s := by
  induction s with
  | nil =>
    rw [index_nil]
    by_cases h : sub = [] <;> simp [h]
  | cons b t ih =>
    unfold Index
    by_cases h : sub.isPrefixOf (b :: t) = true
    · simp only [h, if_true]
      have := List.isPrefixOf_iff_prefix.mp h
      simp [this.isInfix]
    · simp only [h]
      have hp : ¬ sub <+: b :: t := fun hp => h (List.isPrefixOf_iff_prefix.mpr hp)
      simp [List.infix_cons_iff, hp, ih]

theorem index_cons (b : Nat) (t sub : Bytes) :
    Index (b :: t) sub =
      if sub.isPrefixOf (b :: t) then some 0 else (Index t sub).map (· + 1) := by
  rw [Index]

theorem index_some_eq (s sub : Bytes) (j : Nat) (h : Index s sub = some j) :
    s = s.take j ++ sub ++ s.drop (j + sub.length) := by
  induction s generalizing j with
  | nil =>
    rw [index_nil] at h
    by_cases hs : sub = []
    · simp [hs]
    · simp [hs] at h
  | cons b t ih =>
    rw [index_cons] at h
    by_cases hp : sub.isPrefixOf (b :: t) = true
    · simp only [hp, if_true, Option.some.injEq] at h
      subst h
      obtain ⟨u, hu⟩ := List.isPrefixOf_iff_prefix.mp hp
      rw [← hu]
      simp
    · rw [if_neg hp] at h
      cases hi : Index t sub with
      | none => simp [hi] at h
      | some j0 =>
        simp only [hi, Option.map_some', Option.some.injEq] at h
        subst h
        have := ih j0 hi
        simp only [List.take_succ_cons, List.cons_append, Nat.add_right_comm j0 1,
          List.drop_succ_cons]
        rw [← this]

theorem index_some_take (s sub : Bytes) (j : Nat) (hsub : sub ≠ [])
    (h : Index s sub = some j) : ¬ sub <:+: s.take j := by
  induction s generalizing j with
  | nil => simpa using hsub
  | cons b t ih =>
    rw [index_cons] at h
    by_cases hp : sub.isPrefixOf (b :: t) = true
    · simp only [hp, if_true, Option.some.injEq] at h
      subst h
      simpa using hsub
    · rw [if_neg hp] at h
      cases hi : Index t sub with
      | none => simp [hi] at h
      | some j0 =>
        simp only [hi, Option.map_some', Option.some.injEq] at h
        subst h
        rw [List.take_succ_cons, List.infix_cons_iff]
        rintro (hpre | hinf)
        · apply hp
          apply List.isPrefixOf_iff_prefix.mpr
          exact hpre.trans ((List.prefix_cons_inj b).mpr (List.take_prefix j0 t))
        · exact ih j0 hi hinf

theorem index_some_pos (s sub : Bytes) (j : Nat) (hsub : sub ≠ [])
    (h : Index s sub = some j) : (s.drop (j + sub.length)).length < s.length := by
  have heq := index_some_eq s sub j h
  have hl := congrArg List.length heq
  simp only [List.length_append] at hl
  have : 0 < sub.length := List.length_pos.mpr hsub
  omega

theorem singleton_infix_iff (c : Nat) (s : Bytes) : [c] <:+: s ↔ c ∈ s := by
  constructor
  · rintro ⟨u, v, h⟩
    rw [← h]
    simp
  · intro h
    obtain ⟨u, v, h⟩ := List.append_of_mem h
    exact ⟨u, v, by simp [h]⟩

theorem countLoop_acc (sub : Bytes) (f : Nat) (s : Bytes) (n : Nat) :
    countLoop sub f s n = countLoop sub f s 0 + n := by
  induction f generalizing s n with
  | zero => simp [countLoop]
  | succ f ih =>
    rw [countLoop, countLoop]
    cases hi : Index s sub with
    | none => simp
    | some i =>
      simp only
      rw [ih _ (n + 1), ih _ (0 + 1)]
      omega

theorem countLoop_fuel (sub : Bytes) (hsub : sub ≠ []) (f1 f2 : Nat) (s : Bytes)
    (h1 : s.length < f1) (h2 : s.length < f2) :
    countLoop sub f1 s 0 = countLoop sub f2 s 0 := by
  induction f1 generalizing f2 s with
  | zero => omega
  | succ f1 ih =>
    cases f2 with
    | zero => omega
    | succ f2 =>
      rw [countLoop, countLoop]
      cases hi : Index s sub with
      | none => simp
      | some i =>
        simp only
        have hlt := index_some_pos s sub i hsub hi
        rw [countLoop_acc sub f1, countLoop_acc sub f2, ih f2 _ (by omega) (by omega)]

theorem count_of_index_none (s sub : Bytes) (hsub : sub ≠ []) (h : Index s sub = none) :
    Count s sub = 0 := by
  have hl : sub.length ≠ 0 := fun h0 => hsub (List.length_eq_zero.mp h0)
  unfold Count
  rw [if_neg hl]
  by_cases h1 : sub.length = 1
  · rw [if_pos h1]
    obtain ⟨c, rfl⟩ := List.length_eq_one.mp h1
    rw [index_eq_none_iff, singleton_infix_iff] at h
    simpa using List.count_eq_zero.mpr h
  · rw [if_neg h1, countLoop, h]

theorem count_of_index_some (s sub : Bytes) (j : Nat) (hsub : sub ≠ [])
    (h : Index s sub = some j) :
    Count s sub = Count (s.drop (j + sub.length)) sub + 1 := by
  have hl : sub.length ≠ 0 := fun h0 => hsub (List.length_eq_zero.mp h0)
  unfold Count
  rw [if_neg hl, if_neg hl]
  by_cases h1 : sub.length = 1
  · rw [if_pos h1, if_pos h1]
    obtain ⟨c, rfl⟩ := List.length_eq_one.mp h1
    have heq := index_some_eq s [c] j h
    have hnot := index_some_take s [c] j hsub h
    rw [singleton_infix_iff] at hnot
    conv_lhs => rw [heq]
    simp [List.count_append, List.count_eq_zero.mpr hnot]
  · rw [if_neg h1, if_neg h1, countLoop, h]
    simp only
    have hlt := index_some_pos s sub j hsub h
    rw [countLoop_acc, countLoop_fuel sub hsub _ ((s.drop (j + sub.length)).length + 1) _
      (by omega) (by omega)]

theorem index_none_of_count_zero (s sub : Bytes) (hsub : sub ≠ []) (h : Count s sub = 0) :
    Index s sub = none := by
  cases hi : Index s sub with
  | none => rfl
  | some j =>
    rw [count_of_index_some s sub j hsub hi] at h
    omega

theorem scanReplace_skip (old new : Bytes) (k : Nat) (s : Bytes) :
    scanReplace old new k s = scanReplace old new 0 (s.drop k) := by
  induction k generalizing s with
  | zero => simp
  | succ k ih =>
    cases s with
    | nil => simp [scanReplace]
    | cons b t => rw [scanReplace, ih, List.drop_succ_cons]

theorem scanReplace_of_index_none (old new s : Bytes) (h : Index s old = none) :
    scanReplace old new 0 s = s := by
  induction s with
  | nil => simp [scanReplace]
  | cons b t ih =>
    rw [index_cons] at h
    by_cases hp : old.isPrefixOf (b :: t) = true
    · simp [hp] at h
    · rw [if_neg hp] at h
      rw [scanReplace, if_neg hp, ih (by simpa using h)]

theorem scanReplace_of_index_some (old new s : Bytes) (j : Nat) (hold : old ≠ [])
    (h : Index s old = some j) :
    scanReplace old new 0 s =
      s.take j ++ new ++ scanReplace old new 0 (s.drop (j + old.length)) := by
  induction s generalizing j with
  | nil =>
    rw [index_nil] at h
    simp [hold] at h
  | cons b t ih =>
    rw [index_cons] at h
    by_cases hp : old.isPrefixOf (b :: t) = true
    · simp only [hp, if_true, Option.some.injEq] at h
      subst h
      rw [scanReplace, if_pos hp, scanReplace_skip]
      have : 0 < old.length := List.length_pos.mpr hold
      have h1 : 0 + old.length = (old.length - 1) + 1 := by omega
      rw [h1, List.drop_succ_cons]
      simp
    · rw [if_neg hp] at h
      cases hi : Index t old with
      | none => simp [hi] at h
      | some j0 =>
        simp only [hi, Option.map_some', Option.some.injEq] at h
        subst h
        rw [scanReplace, if_neg hp, ih j0 hi]
        simp only [List.take_succ_cons, List.cons_append, Nat.add_right_comm j0 1,
          List.drop_succ_cons]

theorem scanReplace_self (old s : Bytes) (hold : old ≠ []) : scanReplace old old 0 s = s := by
  generalize hn : s.length = n
  induction n using Nat.strong_induction_on generalizing s with
  | _ n ih =>
    subst hn
    cases hi : Index s old with
    | none => exact scanReplace_of_index_none old old s hi
    | some j =>
      rw [scanReplace_of_index_some old old s j hold hi,
        ih _ (index_some_pos s old j hold hi) _ rfl]
      exact (index_some_eq s old j hi).symm

theorem replaceLoop_nonempty (old new : Bytes) (hold : old ≠ []) (s : Bytes) (fl : Bool)
    (b : Bytes) :
    replaceLoop old new (Count s old) fl s b = some (b ++ scanReplace old new 0 s) := by
  generalize hn : s.length = n
  induction n using Nat.strong_induction_on generalizing s fl b with
  | _ n ih =>
    subst hn
    have hl : old.length ≠ 0 := fun h0 => hold (List.length_eq_zero.mp h0)
    cases hi : Index s old with
    | none =>
      rw [count_of_index_none s old hold hi, replaceLoop,
        scanReplace_of_index_none old new s hi]
    | some j =>
      rw [count_of_index_some s old j hold hi, replaceLoop, if_neg hl, hi]
      simp only
      rw [ih _ (index_some_pos s old j hold hi) _ false _ rfl,
        scanReplace_of_index_some old new s j hold hi]
      simp

theorem first_cases (c : Nat) :
    (c < 0x80 ∧ first c = 0xF0) ∨
      (¬ c < 0x80 ∧ (first c = 0xF1 ∨ first c = 0x02 ∨ first c = 0x13 ∨ first c = 0x03 ∨
        first c = 0x23 ∨ first c = 0x34 ∨ first c = 0x04 ∨ first c = 0x44)) := by
  unfold first
  split_ifs <;> simp_all

theorem runeCountStep_eq (s : Bytes) (hs : s ≠ []) : runeCountStep s = decodeRuneSize s := by
  have hlen : ¬ s.length < 1 := by
    have := List.length_pos.mpr hs
    omega
  unfold runeCountStep decodeRuneSize
  simp only [hlen, if_false]
  rcases first_cases (s.getD 0 0) with ⟨h1, h2⟩ | ⟨h1, h2 | h2 | h2 | h2 | h2 | h2 | h2 | h2⟩ <;>
    simp only [h1, h2, if_true, if_false] <;> simp [acceptRanges]

theorem decodeRuneSize_bounds (s : Bytes) (hs : s ≠ []) :
    1 ≤ decodeRuneSize s ∧ decodeRuneSize s ≤ s.length := by
  have hlen : ¬ s.length < 1 := by
    have := List.length_pos.mpr hs
    omega
  unfold decodeRuneSize
  simp only [hlen, if_false]
  rcases first_cases (s.getD 0 0) with ⟨h1, h2⟩ | ⟨h1, h2 | h2 | h2 | h2 | h2 | h2 | h2 | h2⟩ <;>
    simp only [h2] <;> simp [acceptRanges] <;> (try split_ifs) <;> omega

theorem validStep_pos (rest : Bytes) (n : Nat) (h : validStep rest = some n) : 1 ≤ n := by
  unfold validStep at h
  rcases first_cases (rest.getD 0 0) with ⟨h1, h2⟩ | ⟨h1, h2 | h2 | h2 | h2 | h2 | h2 | h2 | h2⟩ <;>
    simp only [h1, h2, if_true, if_false] at h <;> simp at h <;> simp_all <;> omega

/-- The bound on the iterations of `utf8.Valid` is never reached: any bound of
at least the length of the input gives the same result. -/
theorem validLoop_fuel (f1 f2 : Nat) (p : Bytes) (h1 : p.length ≤ f1) (h2 : p.length ≤ f2) :
    validLoop f1 p = validLoop f2 p := by
  induction f1 generalizing f2 p with
  | zero =>
    have : p = [] := List.length_eq_zero.mp (by omega)
    subst this
    cases f2 <;> rfl
  | succ f1 ih =>
    cases p with
    | nil => cases f2 <;> rfl
    | cons b t =>
      cases f2 with
      | zero => simp at h2
      | succ f2 =>
        rw [validLoop, validLoop]
        cases hs : validStep (b :: t) with
        | none => rfl
        | some n =>
          have hn := validStep_pos _ n hs
          have hl : (b :: t).length = t.length + 1 := rfl
          exact ih f2 _ (by rw [List.length_drop]; omega) (by rw [List.length_drop]; omega)

/-- The bound on the iterations of `utf8.RuneCountInString` is never reached. -/
theorem runeCountLoop_fuel (f1 f2 : Nat) (s : Bytes) (h1 : s.length ≤ f1)
    (h2 : s.length ≤ f2) : runeCountLoop f1 s = runeCountLoop f2 s := by
  induction f1 generalizing f2 s with
  | zero =>
    have : s = [] := List.length_eq_zero.mp (by omega)
    subst this
    cases f2 <;> rfl
  | succ f1 ih =>
    cases s with
    | nil => cases f2 <;> rfl
    | cons b t =>
      cases f2 with
      | zero => simp at h2
      | succ f2 =>
        rw [runeCountLoop, runeCountLoop]
        have hb := decodeRuneSize_bounds (b :: t) (by simp)
        rw [runeCountStep_eq (b :: t) (by simp)]
        have hl : (b :: t).length = t.length + 1 := rfl
        rw [ih f2 _ (by rw [List.length_drop]; omega) (by rw [List.length_drop]; omega)]

theorem runesLoop_flatten (fuel : Nat) (s : Bytes) (h : s.length ≤ fuel) :
    (runesLoop fuel s).flatten = s := by
  induction fuel generalizing s with
  | zero =>
    have : s = [] := List.length_eq_zero.mp (by omega)
    simp [this, runesLoop]
  | succ fuel ih =>
    cases s with
    | nil => simp [runesLoop]
    | cons b t =>
      have hb := decodeRuneSize_bounds (b :: t) (by simp)
      have hl : (b :: t).length = t.length + 1 := rfl
      rw [runesLoop, List.flatten_cons, ih _ (by rw [List.length_drop]; omega),
        List.take_append_drop]

theorem replaceLoop_empty (new : Bytes) (fuel : Nat) (s b : Bytes) (h : s.length ≤ fuel) :
    replaceLoop [] new (runeCountLoop fuel s) false s b =
      some (b ++ ((runesLoop fuel s).map (· ++ new)).flatten) := by
  induction fuel generalizing s b with
  | zero =>
    have : s = [] := List.length_eq_zero.mp (by omega)
    simp [this, runeCountLoop, runesLoop, replaceLoop]
  | succ fuel ih =>
    cases s with
    | nil => simp [runeCountLoop, runesLoop, replaceLoop]
    | cons c t =>
      have hb := decodeRuneSize_bounds (c :: t) (by simp)
      have hstep := runeCountStep_eq (c :: t) (by simp)
      rw [runeCountLoop, runesLoop, Nat.add_comm 1, replaceLoop, hstep]
      simp only [List.length_nil, if_true, Bool.false_eq_true, if_false, hb.2, Nat.add_zero]
      have hl : (c :: t).length = t.length + 1 := rfl
      rw [ih _ _ (by rw [List.length_drop]; omega)]
      simp

/-- Go's `strings.ReplaceAll` never panics, and it replaces every
non-overlapping occurrence of `old`, scanning left to right. -/
theorem replaceAll_eq (s old new : Bytes) :
    ReplaceAll s old new = some (replaceEvery s old new) := by
  unfold ReplaceAll Replace replaceEvery
  by_cases hold : old = []
  · subst hold
    by_cases hnew : ([] : Bytes) = new
    · subst hnew
      simp [runes, runesLoop_flatten]
    · have hc : Count s [] = RuneCountInString s + 1 := by simp [Count]
      simp only [hnew, false_or, if_true]
      rw [hc]
      simp only [Int.reduceNeg, Int.neg_ne_zero, one_ne_zero, if_false, Nat.add_one_ne_zero]
      simp only [Int.reduceNeg, Int.reduceLT, true_or, if_true]
      rw [replaceLoop]
      simp only [List.length_nil, if_true, Nat.zero_le, List.drop_zero, Nat.add_zero,
        List.take_zero, List.append_nil, List.nil_append]
      rw [RuneCountInString, replaceLoop_empty new _ s new (le_refl _)]
      rfl
  · rw [if_neg hold]
    by_cases heq : old = new
    · subst heq
      simp [scanReplace_self old s hold]
    · simp only [heq, false_or]
      by_cases hm : Count s old = 0
      · have hi := index_none_of_count_zero s old hold hm
        simp [hm, scanReplace_of_index_none old new s hi]
      · simp only [Int.reduceNeg, Int.neg_ne_zero, one_ne_zero, if_false, hm]
        simp only [Int.reduceNeg, Int.reduceLT, true_or, if_true]
        rw [replaceLoop_nonempty old new hold s true []]
        simp

theorem applyReplacements_eq (R : List Replacement) (t : Bytes) :
    applyReplacements R t = some (foldReplacements R t) := by
  induction R generalizing t with
  | nil => rfl
  | cons p R ih =>
    rw [applyReplacements, replaceAll_eq]
    simp only
    rw [ih]
    rfl

/-! ## The transform -/

theorem printed_append (a b : List Event) : printed (a ++ b) = printed a ++ printed b := by
  induction a with
  | nil => rfl
  | cons e a ih => cases e <;> simp [printed, ih]

theorem genSplitLoop_acc (sep : Bytes) (k : Nat) (s : Bytes) (a : List Bytes) :
    genSplitLoop sep k s a = a ++ genSplitLoop sep k s [] := by
  induction k generalizing s a with
  | zero => simp [genSplitLoop]
  | succ k ih =>
    rw [genSplitLoop, genSplitLoop]
    cases Index s sep with
    | none => simp
    | some m =>
      simp only
      rw [ih _ (a ++ [s.take m]), ih _ ([] ++ [s.take m])]
      simp

theorem split_eq (s : Bytes) (c : Nat) : Split s c = genSplitLoop [c] (s.count c) s [] := by
  unfold Split
  have hc : Count s [c] = s.count c := by simp [Count]
  have hle : s.count c ≤ s.length := List.count_le_length c s
  simp only [hc]
  rw [if_neg (by omega)]
  simp

theorem split_of_not_mem (s : Bytes) (c : Nat) (h : c ∉ s) : Split s c = [s] := by
  rw [split_eq, List.count_eq_zero.mpr h, genSplitLoop]
  rfl

theorem index_append_cons (a rest : Bytes) (c : Nat) (h : c ∉ a) :
    Index (a ++ c :: rest) [c] = some a.length := by
  induction a with
  | nil => simp [index_cons, List.isPrefixOf]
  | cons x a ih =>
    have hx : x ≠ c := fun e => h (by simp [e])
    have ha : c ∉ a := fun e => h (by simp [e])
    rw [List.cons_append, index_cons, ih ha]
    simp [List.isPrefixOf, Ne.symm hx]

theorem split_append_cons (a rest : Bytes) (c : Nat) (h : c ∉ a) :
    Split (a ++ c :: rest) c = a :: Split rest c := by
  rw [split_eq, split_eq]
  have hcount : (a ++ c :: rest).count c = rest.count c + 1 := by
    simp [List.count_append, List.count_eq_zero.mpr h]
  rw [hcount, genSplitLoop, index_append_cons a rest c h]
  simp only
  rw [genSplitLoop_acc]
  simp

theorem split_ne_nil (s : Bytes) (c : Nat) : Split s c ≠ [] := by
  rw [split_eq]
  cases s.count c with
  | zero => simp [genSplitLoop]
  | succ k =>
    rw [genSplitLoop]
    split
    · simp
    · rw [genSplitLoop_acc]
      simp

theorem exists_first_split (c : Nat) (s : Bytes) (h : c ∈ s) :
    ∃ a rest, s = a ++ c :: rest ∧ c ∉ a := by
  induction s with
  | nil => simp at h
  | cons x t ih =>
    by_cases hx : x = c
    · exact ⟨[], t, by simp [hx], by simp⟩
    · have ht : c ∈ t := by
        rcases List.mem_cons.mp h with h1 | h1
        · exact absurd h1.symm hx
        · exact h1
      obtain ⟨a, rest, he, hn⟩ := ih ht
      exact ⟨x :: a, rest, by simp [he], by simp [hn, Ne.symm hx]⟩

theorem split_join (toks : List Bytes) (c : Nat) (hne : toks ≠ [])
    (h : ∀ t ∈ toks, c ∉ t) : Split (Join toks [c]) c = toks := by
  induction toks with
  | nil => exact absurd rfl hne
  | cons t ts ih =>
    cases ts with
    | nil =>
      have : Join [t] [c] = t := by simp [Join, List.intercalate]
      rw [this, split_of_not_mem t c (h t (by simp))]
    | cons t1 ts =>
      have : Join (t :: t1 :: ts) [c] = t ++ c :: Join (t1 :: ts) [c] := by
        simp [Join, List.intercalate]
      rw [this, split_append_cons _ _ _ (h t (by simp)),
        ih (by simp) (fun x hx => h x (List.mem_cons_of_mem _ hx))]

theorem sliceStr_strip (r : Bytes) :
    sliceStr r 1 ((r.length : Int) - 1) = if 2 ≤ r.length then some (stripped r) else none := by
  unfold sliceStr stripped
  by_cases h : 2 ≤ r.length
  · have h1 : (0 : Int) ≤ 1 ∧ (1 : Int) ≤ (r.length : Int) - 1 ∧
        (r.length : Int) - 1 ≤ (r.length : Int) := by omega
    have h2 : ((r.length : Int) - 1 - 1).toNat = r.length - 2 := by omega
    rw [if_pos h1, if_pos h, h2]
    rfl
  · have h1 : ¬ ((0 : Int) ≤ 1 ∧ (1 : Int) ≤ (r.length : Int) - 1 ∧
        (r.length : Int) - 1 ≤ (r.length : Int)) := by omega
    rw [if_neg h1, if_neg h]

theorem parseToken_some_iff (r : Bytes) (p : Replacement) :
    parseToken r = some p ↔
      2 ≤ r.length ∧ ∃ rest, Split (stripped r) 47 = p.Search :: p.Replace :: rest := by
  unfold parseToken
  rw [sliceStr_strip]
  by_cases h : 2 ≤ r.length
  · simp only [if_pos h, h, true_and]
    rcases hs : Split (stripped r) 47 with _ | ⟨p0, _ | ⟨p1, rest⟩⟩
    · simp [hs]
    · simp [hs]
    · cases p
      simp [hs]
  · simp [h]

theorem parseToken_eq_none_iff (r : Bytes) :
    parseToken r = none ↔ r.length < 2 ∨ 47 ∉ stripped r := by
  unfold parseToken
  rw [sliceStr_strip]
  by_cases h : 2 ≤ r.length
  · have h2 : ¬ r.length < 2 := by omega
    simp only [if_pos h, h2, false_or]
    by_cases hm : 47 ∈ stripped r
    · obtain ⟨a, rest, he, hn⟩ := exists_first_split 47 _ hm
      rw [he, split_append_cons a rest 47 hn]
      rcases hs : Split rest 47 with _ | ⟨p1, tl⟩
      · exact absurd hs (split_ne_nil rest 47)
      · simp [hs]
    · rw [split_of_not_mem _ _ hm]
      simp [hm]
  · have h2 : r.length < 2 := by omega
    simp [h, h2]

theorem parseTokens_eq_none_iff (toks : List Bytes) :
    parseTokens toks = none ↔ ∃ t ∈ toks, parseToken t = none := by
  induction toks with
  | nil => simp [parseTokens]
  | cons r rs ih =>
    rw [parseTokens]
    cases hr : parseToken r with
    | none => simp [hr]
    | some p => simp [hr, ih]

theorem getReplacementConfLoop_eq (toks : List Bytes) (pre post : List Replacement)
    (h : post.length = toks.length) :
    getReplacementConfLoop toks pre.length (pre ++ post) =
      (parseTokens toks).map (pre ++ ·) := by
  induction toks generalizing pre post with
  | nil =>
    have : post = [] := List.length_eq_zero.mp h
    simp [this, getReplacementConfLoop, parseTokens]
  | cons r rs ih =>
    cases post with
    | nil => simp at h
    | cons z post =>
      rw [getReplacementConfLoop, parseTokens]
      unfold parseToken
      cases sliceStr r 1 ((r.length : Int) - 1) with
      | none => rfl
      | some inner =>
        simp only
        rcases hs : Split inner 47 with _ | ⟨p0, _ | ⟨p1, rest⟩⟩
        · simp [hs]
        · simp [hs]
        · have hset : (pre ++ z :: post).set pre.length ⟨p0, p1⟩ =
              (pre ++ [⟨p0, p1⟩]) ++ post := by
            simp [List.set_append]
          have hlen : pre.length + 1 = (pre ++ [(⟨p0, p1⟩ : Replacement)]).length := by simp
          simp only [hs, List.getElem?_cons_zero, List.getElem?_cons_succ]
          rw [hset, hlen, ih _ post (by simpa using h)]
          cases parseTokens rs <;> simp

theorem getReplacementConf_eq (replace : Bytes) :
    getReplacementConf replace = parseTokens (Split replace 44) := by
  unfold getReplacementConf
  have := getReplacementConfLoop_eq (Split replace 44) []
    (List.replicate (Split replace 44).length ⟨[], []⟩) (by simp)
  simp only [List.length_nil, List.nil_append] at this
  rw [this]
  cases parseTokens (Split replace 44) <;> simp

theorem parseToken_encodeToken (p : Replacement) (h1 : 47 ∉ p.Search) (h2 : 47 ∉ p.Replace) :
    parseToken (encodeToken p) = some p := by
  rw [parseToken_some_iff]
  have hs : stripped (encodeToken p) = p.Search ++ 47 :: p.Replace := by
    simp [stripped, encodeToken, List.take_append_eq_append_take]
  refine ⟨by simp [encodeToken]; omega, [], ?_⟩
  rw [hs, split_append_cons _ _ _ h1, split_of_not_mem _ _ h2]

theorem parseTokens_forall₂ (toks : List Bytes) (l : List Replacement)
    (h : parseTokens toks = some l) :
    List.Forall₂ (fun tok p => parseToken tok = some p) toks l := by
  induction toks generalizing l with
  | nil =>
    simp only [parseTokens, Option.some.injEq] at h
    subst h
    exact List.Forall₂.nil
  | cons r rs ih =>
    rw [parseTokens] at h
    cases hr : parseToken r with
    | none => simp [hr] at h
    | some p =>
      cases hrs : parseTokens rs with
      | none => simp [hr, hrs] at h
      | some l1 =>
        simp only [hr, hrs, Option.map_some', Option.some.injEq] at h
        subst h
        exact List.Forall₂.cons hr (ih l1 hrs)

/-- C3. The parser inverts the `/search/replace/` encoding: for a non-empty
list of pairs whose strings hold neither `/` nor `,`, `getReplacementConf`
applied to the tokens `/s/r/` joined with `,` returns exactly that list, in
the same order. -/
theorem getReplacementConf_encodeReplace (l : List Replacement) (hne : l ≠ [])
    (h : ∀ p ∈ l, 47 ∉ p.Search ∧ 44 ∉ p.Search ∧ 47 ∉ p.Replace ∧ 44 ∉ p.Replace) :
    getReplacementConf (encodeReplace l) = some l := by
  rw [getReplacementConf_eq, encodeReplace, split_join _ _ (by simpa using hne)]
  · clear hne
    induction l with
    | nil => rfl
    | cons p l ih =>
      obtain ⟨h1, -, h3, -⟩ := h p (by simp)
      rw [List.map_cons, parseTokens, parseToken_encodeToken p h1 h3]
      simp only
      rw [ih (fun q hq => h q (List.mem_cons_of_mem _ hq))]
      rfl
  · intro t ht
    obtain ⟨p, hp, rfl⟩ := List.mem_map.mp ht
    obtain ⟨-, h2, -, h4⟩ := h p hp
    simp [encodeToken, h2, h4]

/-- C7. A `--replace` value with a comma-separated token that is shorter than
two bytes, or whose remainder after its first and last byte are stripped holds
no `/`, makes `getReplacementConf` panic: it returns no list. -/
theorem getReplacementConf_panics_of_bad_token (replace tok : Bytes)
    (hmem : tok ∈ Split replace 44) (hbad : tok.length < 2 ∨ 47 ∉ stripped tok) :
    getReplacementConf replace = none := by
  rw [getReplacementConf_eq, parseTokens_eq_none_iff]
  exact ⟨tok, hmem, (parseToken_eq_none_iff tok).mpr hbad⟩

/-- C8, what the code does instead of the claim: a remainder with more than
one `/` does not make `getReplacementConf` panic.  The token `/a/b/c/` has the
remainder `a/b/c`, of three parts, and the result is the list of the one pair
(a, b). -/
theorem getReplacementConf_three_parts :
    Split (stripped (ascii "/a/b/c/")) 47 = [ascii "a", ascii "b", ascii "c"] ∧
      getReplacementConf (ascii "/a/b/c/") = some [⟨ascii "a", ascii "b"⟩] := by
  decide

/-- C8, amended. `getReplacementConf` returns a list exactly when every
comma-separated token has at least two bytes and its stripped remainder holds
at least one `/`; the list then has one pair per token, in order, made of the
first two parts of the remainder, further parts being dropped. -/
theorem getReplacementConf_returns_iff (replace : Bytes) :
    ((∃ l, getReplacementConf replace = some l) ↔
        ∀ tok ∈ Split replace 44, 2 ≤ tok.length ∧ 47 ∈ stripped tok) ∧
      ∀ l, getReplacementConf replace = some l →
        List.Forall₂
          (fun tok p => ∃ rest, Split (stripped tok) 47 = p.Search :: p.Replace :: rest)
          (Split replace 44) l := by
  rw [getReplacementConf_eq]
  constructor
  · have hnone := parseTokens_eq_none_iff (Split replace 44)
    simp only [parseToken_eq_none_iff] at hnone
    constructor
    · rintro ⟨l, hl⟩ tok ht
      by_contra hbad
      have : parseTokens (Split replace 44) = none :=
        hnone.mpr ⟨tok, ht, by by_cases h2 : tok.length < 2 <;> simp_all⟩
      simp [hl] at this
    · intro h
      cases hp : parseTokens (Split replace 44) with
      | some l => exact ⟨l, rfl⟩
      | none =>
        obtain ⟨tok, ht, hbad⟩ := hnone.mp hp
        have := h tok ht
        rcases hbad with hbad | hbad
        · omega
        · exact absurd this.2 hbad
  · intro l hl
    refine (parseTokens_forall₂ _ l hl).imp ?_
    intro tok p hp
    exact ((parseToken_some_iff tok p).mp hp).2

/-! ## Occurrences of the search string after a replacement -/

theorem getFilesLoop_spec (orig : List FileAsset) (k i : Nat) (files : Slice FileAsset)
    (hik : i + k ≤ orig.length) (hn : files.len ≤ i)
    (hlen : files.backing.length = orig.length)
    (hdrop : files.backing.drop i = orig.drop i) :
    ∃ out, getFilesLoop k i files = some out ∧
      out.backing.length = orig.length ∧
      out.toList = files.toList ++ ((orig.drop i).take k).filter (fun a => !a.IsDir) := by
  induction k generalizing i files with
  | zero => exact ⟨files, rfl, hlen, by simp⟩
  | succ k ih =>
    have hi : i < orig.length := by omega
    have hget : files.backing[i]? = some orig[i] := by
      have h0 := congrArg (fun l => l[0]?) hdrop
      simp only [List.getElem?_drop, Nat.add_zero] at h0
      rw [h0, List.getElem?_eq_getElem hi]
    have htake : (orig.drop i).take (k + 1) = orig[i] :: (orig.drop (i + 1)).take k := by
      rw [List.drop_eq_getElem_cons hi, List.take_succ_cons]
    have hdrop1 : files.backing.drop (i + 1) = orig.drop (i + 1) := by
      have := congrArg (List.drop 1) hdrop
      simpa [List.drop_drop, Nat.add_comm] using this
    rw [getFilesLoop, hget, htake]
    simp only
    by_cases hd : orig[i].IsDir = true
    · simp only [hd, Bool.not_true, Bool.false_eq_true, if_false, List.filter_cons_of_neg,
        not_false_eq_true]
      exact ih (i + 1) files (by omega) (by omega) hlen hdrop1
    · have hd1 : (!orig[i].IsDir) = true := by simpa using hd
      have hcap : files.len + 1 ≤ files.backing.length := by omega
      simp only [hd1, if_true, pushGlob, hcap, dite_true]
      obtain ⟨out, h1, h2, h3⟩ := ih (i + 1)
        ⟨files.backing.set files.len orig[i], files.len + 1, by simpa using hcap⟩
        (by omega) (by simp only; omega) (by simpa using hlen)
        (by simp only; rw [List.drop_set_of_lt _ _ (by omega), hdrop1])
      refine ⟨out, h1, h2, ?_⟩
      have hfil : List.filter (fun a => !a.IsDir) (orig[i] :: ((orig.drop (i + 1)).take k)) =
          orig[i] :: List.filter (fun a => !a.IsDir) ((orig.drop (i + 1)).take k) :=
        List.filter_cons_of_pos hd1
      rw [h3, hfil]
      simp only [Slice.toList, List.take_succ]
      rw [List.getElem?_set_self (by omega), List.set_take,
        List.set_eq_of_length_le (by simp)]
      simp

/-- C10. `getFiles` never panics (the reslice of `pushGlob` stays within the
capacity) and returns exactly the assets that are not directories, each once
and in their original order, although it writes them into the backing array
of its argument while it reads that array; the result lives in that same
array, whose capacity is unchanged. -/
theorem getFiles_eq_filter (assets : Slice FileAsset) :
    ∃ files, getFiles assets = some files ∧
      files.toList = assets.toList.filter (fun a => !a.IsDir) ∧
      files.backing.length = assets.backing.length := by
  obtain ⟨out, h1, h2, h3⟩ := getFilesLoop_spec assets.backing assets.len 0
    ⟨assets.backing, 0, Nat.zero_le _⟩ (by simpa using assets.len_le) (le_refl _) rfl rfl
  exact ⟨out, h1, by simpa [Slice.toList] using h3, h2⟩

/-! ## The per-file loop and write errors -/

/-- C9, the code at a failing input. The write of the binary file `b.bin`
returns an error; the run does not abort there: it prints that the file was
copied, goes on to process `a.txt`, and ends with success, and no file
`out/b.bin` exists afterwards. -/
theorem binary_write_error_is_ignored :
    (memSys none).writeFile failingFS (ascii "/w/out/b.bin") [0xff, 0xfe, 0x00] 0o755 =
        (failingFS, true) ∧
      (action (memSys none) (ascii "**/*") (ascii "nomatch") (ascii "out")
        (ascii "/foo/X/") [] [] failingFS).2 = Outcome.success ∧
      printed (action (memSys none) (ascii "**/*") (ascii "nomatch") (ascii "out")
        (ascii "/foo/X/") [] [] failingFS).1.trace =
        [ascii "Copied binary file /w/out/b.bin", ascii "Applying replacements to a.txt",
          ascii "Created file with replacements /w/out/a.txt"] ∧
      (action (memSys none) (ascii "**/*") (ascii "nomatch") (ascii "out")
        (ascii "/foo/X/") [] [] failingFS).1.state.files =
        failingFS.files ++ [(ascii "out/a.txt", ascii "X baz", 0o655)] := by
  decide

/-- When the write of a text file returns an error the body of the loop
panics right after the write: the line "Created file ..." is not printed. -/
theorem text_write_error_panics {σ : Type} (sys : Sys σ) (output extension : Bytes)
    (R : List Replacement) (file : FileAsset) (r : Run σ)
    (cwd absPath content cwd2 : Bytes) (st1 st4 : σ)
    (hcwd : sys.getwd r.state = some cwd)
    (hmk : sys.mkdirAll r.state (sys.join [cwd, output, sys.dir file.Path]) 0o755 = (st1, false))
    (habs : sys.abs st1 file.Path = some absPath)
    (hread : sys.readFile st1 absPath = some content)
    (hcwd2 : sys.getwd st1 = some cwd2)
    (hvalid : Valid content = true)
    (hwrite : sys.writeFile st1 (sys.join [cwd2, output, file.Path ++ extension])
      (foldReplacements R content) 0o655 = (st4, true)) :
    (processFile sys output extension R file r).2 = true ∧
      printed (processFile sys output extension R file r).1.trace =
        printed r.trace ++ [ascii "Applying replacements to " ++ file.Path] := by
  unfold processFile
  simp only [pwd, toAbsolutePath, check, hcwd, hmk, Run.emit, habs, hread, hcwd2, hvalid,
    applyReplacements_eq, if_true, Bool.false_eq_true, if_false, hwrite]
  simp [printed_append, printed]

/-- A panic in the body of the loop ends the run: the later files are not
processed and the outcome is the panic. -/
theorem processFiles_panic {σ : Type} (sys : Sys σ) (output extension : Bytes)
    (R : List Replacement) (file : FileAsset) (rest : List FileAsset) (r : Run σ)
    (h : (processFile sys output extension R file r).2 = true) :
    processFiles sys output extension R (file :: rest) r =
      ((processFile sys output extension R file r).1, Outcome.panic) := by
  rw [processFiles]
  rcases hp : processFile sys output extension R file r with ⟨r1, b⟩
  rw [hp] at h
  simp only at h
  subst h
  rfl

/-! ## Config resolution -/

theorem processFiles_outcome {σ : Type} (sys : Sys σ) (output extension : Bytes)
    (R : List Replacement) (files : List FileAsset) (r : Run σ) :
    (processFiles sys output extension R files r).2 = Outcome.success ∨
      (processFiles sys output extension R files r).2 = Outcome.panic := by
  induction files generalizing r with
  | nil => left; rfl
  | cons file rest ih =>
    rw [processFiles]
    rcases hp : processFile sys output extension R file r with ⟨r1, b⟩
    cases b with
    | true => right; rfl
    | false => exact ih r1

theorem getReplacementConf_ne_nil (replace : Bytes) (l : List Replacement)
    (h : getReplacementConf replace = some l) : l ≠ [] := by
  rw [getReplacementConf_eq] at h
  have hf := parseTokens_forall₂ _ l h
  intro hl
  subst hl
  have := hf.length_eq
  exact split_ne_nil replace 44 (List.length_eq_zero.mp (by simpa using this))

theorem action_requiredFlags_iff {σ : Type} (sys : Sys σ)
    (input exclude output replace extension configPath : Bytes) (st : σ)
    (e : errRequiredFlags) :
    (action sys input exclude output replace extension configPath st).2 =
        Outcome.requiredFlags e ↔
      (resolveReplacements sys replace configPath ⟨st, []⟩).2 = some [] ∧
        e = ⟨[ascii "config-file", ascii "replace"]⟩ := by
  unfold action
  rcases hres : resolveReplacements sys replace configPath ⟨st, []⟩ with ⟨r1, _ | l⟩
  · simp
  · simp only
    by_cases hl : l.length = 0
    · have : l = [] := List.length_eq_zero.mp hl
      subst this
      simp only [List.length_nil, if_true, Outcome.requiredFlags.injEq, true_and]
      exact eq_comm
    · have hne : l ≠ [] := fun h => hl (by simp [h])
      rw [if_neg hl]
      simp only [Option.some.injEq, hne, false_and, iff_false]
      cases getFileList sys r1.state input exclude with
      | none => simp
      | some assets =>
        simp only
        cases getFiles assets with
        | none => simp
        | some files =>
          simp only
          rcases processFiles_outcome sys output extension l files.toList
            (r1.emit (Event.glob [input, ascii "!" ++ exclude])) with h | h <;> simp [h]

theorem action_of_resolve_nil {σ : Type} (sys : Sys σ)
    (input exclude output replace extension configPath : Bytes) (st : σ)
    (h : (resolveReplacements sys replace configPath ⟨st, []⟩).2 = some []) :
    action sys input exclude output replace extension configPath st =
      ((resolveReplacements sys replace configPath ⟨st, []⟩).1,
        Outcome.requiredFlags ⟨[ascii "config-file", ascii "replace"]⟩) := by
  unfold action
  rcases hres : resolveReplacements sys replace configPath ⟨st, []⟩ with ⟨r1, o⟩
  rw [hres] at h
  simp only at h
  subst h
  rfl

theorem resolveReplacements_nil_iff {σ : Type} (sys : Sys σ) (replace configPath : Bytes)
    (r : Run σ) :
    (resolveReplacements sys replace configPath r).2 = some [] ↔
      replace = [] ∧ (configPath = [] ∨ configYields sys r.state configPath []) := by
  unfold resolveReplacements configYields toAbsolutePath
  by_cases hr : replace = []
  · subst hr
    by_cases hc : configPath = []
    · subst hc
      simp
    · have hc1 : configPath.length > 0 := List.length_pos.mpr hc
      simp only [hc1, if_true, List.length_nil, gt_iff_lt, lt_self_iff_false, if_false, hc,
        false_or, true_and]
      cases ha : sys.abs r.state configPath with
      | none => simp
      | some absPath =>
        simp only
        cases hrd : sys.readFile r.state absPath with
        | none => simp [hrd]
        | some yamlFile =>
          simp only
          cases hu : sys.unmarshal yamlFile with
          | none => simp [hrd, hu]
          | some c =>
            cases c
            simp [hrd, hu]
  · have hr1 : replace.length > 0 := List.length_pos.mpr hr
    simp only [hr, false_and, iff_false]
    intro h
    have key : ∀ l, getReplacementConf replace = some l → l ≠ [] :=
      getReplacementConf_ne_nil replace
    split at h
    · simp at h
    · rw [if_pos hr1] at h
      exact key [] h rfl

theorem resolveReplacements_trace {σ : Type} (sys : Sys σ) (replace configPath : Bytes)
    (r : Run σ) :
    (resolveReplacements sys replace configPath r).1.state = r.state ∧
      ((resolveReplacements sys replace configPath r).1.trace = r.trace ∨
        ∃ absPath, configPath ≠ [] ∧ sys.abs r.state configPath = some absPath ∧
          (resolveReplacements sys replace configPath r).1.trace =
            r.trace ++ [Event.readFile absPath]) := by
  unfold resolveReplacements toAbsolutePath
  by_cases hc : configPath = []
  · subst hc
    simp only [List.length_nil, gt_iff_lt, lt_self_iff_false, if_false]
    split <;> simp
  · have hc1 : configPath.length > 0 := List.length_pos.mpr hc
    simp only [hc1, if_true]
    cases sys.abs r.state configPath with
    | none => simp
    | some absPath =>
      simp only
      cases sys.readFile r.state absPath with
      | none => simp [Run.emit, hc]
      | some yamlFile =>
        simp only
        cases sys.unmarshal yamlFile with
        | none => simp [Run.emit, hc]
        | some l =>
          simp only
          split <;> simp [Run.emit, hc]

theorem requiredFlags_error_message (quote : Bytes → Bytes) :
    (⟨[ascii "config-file", ascii "replace"]⟩ : errRequiredFlags).Error quote =
      ascii "Required flags " ++ quote (ascii "config-file, replace") ++ ascii " not set" := by
  have h : Join [ascii "config-file", ascii "replace"] (ascii ", ") =
      ascii "config-file, replace" := by decide
  simp [errRequiredFlags.Error, h]

/-- C5. The `Action` returns the `errRequiredFlags` error exactly when
`--replace` is empty and the config file is either not given or is read and
yields an empty replacement list.  The error then names the flags
`config-file` and `replace`, the filesystem is unchanged, and the only event
before the return is the read of the config file: nothing is globbed, created
or written and no input file is read.  With `--replace` empty and no
`--config-file` the run always ends this way, with no event at all. -/
theorem required_flags_error_iff {σ : Type} (sys : Sys σ)
    (input exclude output replace extension configPath : Bytes) (st : σ)
    (quote : Bytes → Bytes) :
    ((∃ e, (action sys input exclude output replace extension configPath st).2 =
          Outcome.requiredFlags e) ↔
        replace = [] ∧ (configPath = [] ∨ configYields sys st configPath [])) ∧
      (∀ e, (action sys input exclude output replace extension configPath st).2 =
          Outcome.requiredFlags e →
        e.missingFlags = [ascii "config-file", ascii "replace"] ∧
        e.Error quote =
          ascii "Required flags " ++ quote (ascii "config-file, replace") ++ ascii " not set" ∧
        (action sys input exclude output replace extension configPath st).1.state = st ∧
        ∀ ev ∈ (action sys input exclude output replace extension configPath st).1.trace,
          ∃ absPath, configPath ≠ [] ∧ sys.abs st configPath = some absPath ∧
            ev = Event.readFile absPath) ∧
      (replace = [] → configPath = [] →
        action sys input exclude output replace extension configPath st =
          (⟨st, []⟩, Outcome.requiredFlags ⟨[ascii "config-file", ascii "replace"]⟩)) := by
  refine ⟨?_, ?_, ?_⟩
  · rw [← resolveReplacements_nil_iff sys replace configPath ⟨st, []⟩]
    constructor
    · rintro ⟨e, he⟩
      exact ((action_requiredFlags_iff sys input exclude output replace extension configPath
        st e).mp he).1
    · intro h
      exact ⟨_, (action_requiredFlags_iff sys input exclude output replace extension
        configPath st _).mpr ⟨h, rfl⟩⟩
  · intro e he
    obtain ⟨hnil, rfl⟩ := (action_requiredFlags_iff sys input exclude output replace extension
      configPath st e).mp he
    rw [action_of_resolve_nil sys input exclude output replace extension configPath st hnil]
    obtain ⟨hst, htr⟩ := resolveReplacements_trace sys replace configPath ⟨st, []⟩
    refine ⟨rfl, requiredFlags_error_message quote, hst, ?_⟩
    intro ev hev
    rcases htr with htr | ⟨absPath, hc, ha, htr⟩
    · simp only at hev
      rw [htr] at hev
      simp at hev
    · simp only at hev
      rw [htr] at hev
      simp only [List.nil_append, List.mem_singleton] at hev
      exact ⟨absPath, hc, ha, hev⟩
  · rintro rfl rfl
    rfl

/-- C6. When `--replace` is non-empty and well formed, the replacement list
in force is the one `getReplacementConf` returns for it, whatever list the
config file holds (and whether or not a config file is given): the entries of
the config file are dropped, not merged. -/
theorem inline_replace_overrides_config {σ : Type} (sys : Sys σ)
    (replace configPath : Bytes) (r : Run σ) (cfg l : List Replacement)
    (hne : replace ≠ []) (hwf : getReplacementConf replace = some l)
    (hcfg : configPath = [] ∨ configYields sys r.state configPath cfg) :
    (resolveReplacements sys replace configPath r).2 = some l := by
  have hr1 : replace.length > 0 := List.length_pos.mpr hne
  unfold resolveReplacements toAbsolutePath
  by_cases hc : configPath = []
  · subst hc
    simp [hr1, hwf]
  · have hc1 : configPath.length > 0 := List.length_pos.mpr hc
    rcases hcfg with hcfg | ⟨absPath, yamlFile, h1, h2, h3⟩
    · exact absurd hcfg hc
    · simp [hc1, h1, h2, h3, hr1, hwf]

/-! ## Concrete instances -/

/-- The end-to-end scenario of the specification: with `--replace
/foo/X/,/baz/Y/` and `--output out`, `out/a.txt` holds `X Y` and `out/b.bin`
is written byte for byte with its own mode; the run returns nil. -/
theorem scenario_end_to_end :
    (action (memSys none) (ascii "**/*") (ascii "nomatch") (ascii "out")
        (ascii "/foo/X/,/baz/Y/") [] [] demoFS).2 = Outcome.success ∧
      writes (action (memSys none) (ascii "**/*") (ascii "nomatch") (ascii "out")
        (ascii "/foo/X/,/baz/Y/") [] [] demoFS).1.trace =
        [(ascii "/w/out/a.txt", ascii "X Y", 0o655),
          (ascii "/w/out/b.bin", [0xff, 0xfe, 0x00], 0o755)] := by
  decide

/-- The example of the specification: `/foo/bar/,/baz/qux/` parses to the
pairs (foo, bar) and (baz, qux), in that order. -/
theorem getReplacementConf_encodeReplace_witness :
    encodeReplace [⟨ascii "foo", ascii "bar"⟩, ⟨ascii "baz", ascii "qux"⟩] =
        ascii "/foo/bar/,/baz/qux/" ∧
      getReplacementConf (encodeReplace [⟨ascii "foo", ascii "bar"⟩, ⟨ascii "baz", ascii "qux"⟩]) =
        some [⟨ascii "foo", ascii "bar"⟩, ⟨ascii "baz", ascii "qux"⟩] :=
  ⟨by decide,
    getReplacementConf_encodeReplace [⟨ascii "foo", ascii "bar"⟩, ⟨ascii "baz", ascii "qux"⟩]
      (by decide) (by decide)⟩

/-- With a config file that holds (x, y), `--replace /foo/bar/` gives the one
pair (foo, bar). -/
theorem inline_replace_overrides_config_witness :
    (resolveReplacements (memSys (some [⟨ascii "x", ascii "y"⟩])) (ascii "/foo/bar/")
      (ascii "c.yml") ⟨configFS, []⟩).2 = some [⟨ascii "foo", ascii "bar"⟩] :=
  inline_replace_overrides_config (memSys (some [⟨ascii "x", ascii "y"⟩])) (ascii "/foo/bar/")
    (ascii "c.yml") ⟨configFS, []⟩ [⟨ascii "x", ascii "y"⟩] [⟨ascii "foo", ascii "bar"⟩]
    (by decide) (by decide)
    (Or.inr ⟨ascii "/w/c.yml", ascii "replacements:", by decide, by decide, by decide⟩)

/-- The value `/a/b/,/ab/` has the token `/ab/`, whose remainder `ab` holds no
slash: the parser panics. -/
theorem getReplacementConf_panics_of_bad_token_witness :
    ascii "/ab/" ∈ Split (ascii "/a/b/,/ab/") 44 ∧ getReplacementConf (ascii "/a/b/,/ab/") = none :=
  ⟨by decide,
    getReplacementConf_panics_of_bad_token (ascii "/a/b/,/ab/") (ascii "/ab/") (by decide)
      (Or.inr (by decide))⟩

end Templatizr
